import Mathlib

/-!
Shallow embedding of the data pipeline in src/app.py (function load_and_merge_data
and its inner helper find_best_zip), together with a model of the library
functions it calls: pandas Series.str.zfill (Python str.zfill semantics),
pandas Series.str.extract with the pattern of one digit group (first maximal
digit run), pandas astype(str) on a nullable column (missing values render as
the string "nan"), rapidfuzz fuzz.ratio / fuzz.partial_ratio (normalized indel
similarity, best sliding-window alignment of the shorter string in the longer,
on a 0-100 scale, modelled exactly over the rationals), and rapidfuzz
process.extractOne (best-scoring choice, first one kept on ties, none only for
an empty choice list). Floating-point cell values are modelled as exact
rationals extended with the non-finite values inf, -inf and nan, with the IEEE
division behaviour pandas exhibits on them (sign of zero ignored).
-/

/-- Model of a pandas float cell: an exact rational, or one of the
non-finite values positive infinity, negative infinity, NaN. -/
inductive PFloat where
  | num (q : ℚ)
  | inf
  | negInf
  | nan
deriving DecidableEq

/-- A PFloat is finite exactly when it is a rational number. -/
def PFloat.isFinite : PFloat → Bool
  | .num _ => true
  | _ => false

/-- Exact division of rationals written through mkRat so that it evaluates
by kernel reduction; ratDiv_eq_div below proves it is ordinary division. -/
def ratDiv (a b : ℚ) : ℚ :=
  let n : Int := a.num * (b.den : Int)
  let m : Int := b.num * (a.den : Int)
  if m < 0 then mkRat (-n) (-m).toNat else mkRat n m.toNat

/-- Division on PFloat, following IEEE-754 float division as performed by
pandas on a numeric column (signed zero not modelled: 0/0 is NaN, x/0 for
x positive is inf, for x negative is -inf). -/
def PFloat.div : PFloat → PFloat → PFloat
  | .nan, _ => .nan
  | _, .nan => .nan
  | .num a, .num b =>
    if b = 0 then (if 0 < a then .inf else if a < 0 then .negInf else .nan)
    else .num (ratDiv a b)
  | .num _, .inf => .num 0
  | .num _, .negInf => .num 0
  | .inf, .num b => if b < 0 then .negInf else .inf
  | .negInf, .num b => if b < 0 then .inf else .negInf
  | .inf, .inf => .nan
  | .inf, .negInf => .nan
  | .negInf, .inf => .nan
  | .negInf, .negInf => .nan

/-- Python str.zfill: left-pad with the zero character to width w; a leading
sign character stays in front of the inserted zeros; a string already at
least w long is returned unchanged. Embeds line 32 of src/app.py
(demo_df.zip_code astype(str).str.zfill(5) applies this per cell). -/
def zfill (s : String) (w : Nat) : String :=
  if w ≤ s.data.length then s
  else
    match s.data with
    | [] => String.mk (List.replicate w '0')
    | c :: cs =>
      if c = '+' ∨ c = '-' then
        String.mk (c :: (List.replicate (w - s.data.length) '0' ++ cs))
      else
        String.mk (List.replicate (w - s.data.length) '0' ++ s.data)

/-- pandas astype(str) on a nullable string column: a missing value renders
as the literal string "nan"; a present string is unchanged. -/
def astypeStr : Option String → String
  | none => "nan"
  | some s => s

/-- First maximal contiguous run of decimal digits of a character list, or
none when the list has no digit. Embeds the regex extraction
str.extract of one group of one-or-more digits at line 34 of src/app.py:
the regex engine finds the leftmost match and the quantifier is greedy, so
the match is the first maximal digit run. -/
def firstDigitRun : List Char → Option (List Char)
  | [] => none
  | c :: cs =>
    if c.isDigit then some (c :: cs.takeWhile Char.isDigit)
    else firstDigitRun cs

/-- Derivation of the listing column produced at line 34 of src/app.py from
the raw postal_code cell: astype(str) then extract of the first digit run
(a missing raw value becomes "nan", which has no digits, hence none). -/
def zipPrefixOf (pc : Option String) : Option String :=
  (firstDigitRun (astypeStr pc).data).map String.mk

/-- Length of a longest common subsequence, with an explicit recursion
budget so that the definition is structurally recursive and evaluates by
kernel reduction; every recursive call shortens the lists by at least one
character while spending one unit of budget, so a budget of the total
length never runs out. -/
def lcsLenFuel : Nat → List Char → List Char → Nat
  | 0, _, _ => 0
  | _, [], _ => 0
  | _, _ :: _, [] => 0
  | fuel + 1, a :: as, b :: bs =>
    if a = b then lcsLenFuel fuel as bs + 1
    else max (lcsLenFuel fuel (a :: as) bs) (lcsLenFuel fuel as (b :: bs))

/-- Length of a longest common subsequence of two character lists. -/
def lcsLen (a b : List Char) : Nat := lcsLenFuel (a.length + b.length) a b

/-- rapidfuzz fuzz.ratio: normalized indel similarity on a 0-100 scale,
which equals 200 * lcs / (|a| + |b|), and 100 for two empty strings;
modelled exactly over the rationals. -/
def ratioQ (a b : List Char) : ℚ :=
  if a.length + b.length = 0 then 100
  else mkRat (200 * (lcsLen a b : Int)) (a.length + b.length)

/-- All contiguous windows of length n of a list (empty when n exceeds the
list length). -/
def windows (l : List Char) (n : Nat) : List (List Char) :=
  (List.range (l.length + 1 - n)).map (fun i => (l.drop i).take n)

/-- rapidfuzz fuzz.partial_ratio: the best fuzz.ratio alignment of the
shorter string against the contiguous windows of its length in the longer
string, on a 0-100 scale. -/
def partRatio (a b : List Char) : ℚ :=
  let s := if a.length ≤ b.length then a else b
  let l := if a.length ≤ b.length then b else a
  ((windows l s.length).map (fun w => ratioQ s w)).foldr max 0

/-- Score of a query string against a choice string with the scorer used at
line 41 of src/app.py (fuzz.partial_ratio). -/
def scoreOf (q c : String) : ℚ := partRatio q.data c.data

/-- Forward scan keeping the best-scoring choice seen so far, replacing the
current best only on a strictly larger score (so ties keep the
first-encountered choice, as rapidfuzz process.extractOne does). -/
def bestFrom (q : String) : (String × ℚ) → List String → String × ℚ
  | cur, [] => cur
  | cur, c :: cs =>
    bestFrom q (if cur.2 < scoreOf q c then (c, scoreOf q c) else cur) cs

/-- rapidfuzz process.extractOne with no score cutoff: none on an empty
choice list, otherwise the first best-scoring choice with its score. -/
def extractOne (q : String) : List String → Option (String × ℚ)
  | [] => none
  | c :: cs => some (bestFrom q (c, scoreOf q c) cs)

/-- Distinct values of a list in order of first occurrence, as
pandas Series.unique returns them (line 39 of src/app.py); seen holds the
values already emitted. -/
def uniqueAux (seen : List String) : List String → List String
  | [] => []
  | x :: xs =>
    if x ∈ seen then uniqueAux seen xs
    else x :: uniqueAux (x :: seen) xs

/-- pandas Series.unique: distinct values in order of first occurrence. -/
def uniqueFirst (l : List String) : List String := uniqueAux [] l

/-- Lines 37-42 of src/app.py: find_best_zip. None for a missing prefix
(pd.isna), otherwise extractOne over the choices with fuzz.partial_ratio,
accepting the match only when its score is at least 80. -/
def find_best_zip (choices : List String) (pfx : Option String) : Option String :=
  match pfx with
  | none => none
  | some p =>
    match extractOne p choices with
    | none => none
    | some m => if 80 ≤ m.2 then some m.1 else none

/-- A row of the demographics table: the postal identifier plus the
demographic attributes the app reads (school_rating, crime_index). -/
structure DemoRow where
  zip_code : String
  school_rating : PFloat
  crime_index : String
deriving DecidableEq

/-- A raw row of the listings table (postal_code is nullable free text). -/
structure ListingRow where
  postal_code : Option String
  listing_price : PFloat
  sq_ft : PFloat
  raw_address : String
deriving DecidableEq

/-- A listing row extended with the two derived working columns of
lines 34 and 44 of src/app.py. -/
structure MatchedListing where
  row : ListingRow
  zip_prefix : Option String
  matched_zip : Option String
deriving DecidableEq

/-- A row of the merged output table: all listing columns (including the
working columns), all demographic columns of the matched row, and the
derived metric of line 56 of src/app.py. -/
structure EnrichedRow where
  listing : MatchedListing
  demo : DemoRow
  price_per_sqft : PFloat
deriving DecidableEq

/-- Line 32 of src/app.py: zip_code := astype(str) then zfill 5, per row
(the cell is modelled by its string rendering). -/
def normalizeDemo (ds : List DemoRow) : List DemoRow :=
  ds.map (fun d => { d with zip_code := zfill d.zip_code 5 })

/-- Line 39 of src/app.py: the candidate set, the distinct normalized
demographic zip codes in first-occurrence order. -/
def choicesOf (ds : List DemoRow) : List String :=
  uniqueFirst ((normalizeDemo ds).map DemoRow.zip_code)

/-- Lines 34 and 44 of src/app.py applied to one listing row: derive
the prefix column, then the matched column through find_best_zip. -/
def addDerived (choices : List String) (l : ListingRow) : MatchedListing :=
  { row := l, zip_prefix := zipPrefixOf l.postal_code,
    matched_zip := find_best_zip choices (zipPrefixOf l.postal_code) }

/-- The listings table after both derived columns are added. -/
def withDerived (ds : List DemoRow) (ls : List ListingRow) : List MatchedListing :=
  ls.map (addDerived (choicesOf ds))

/-- Lines 47-53 of src/app.py: pandas inner merge of the listings on
matched_zip against the demographics on zip_code; left row order is kept,
each left row pairs with the matching right rows in right order, and a
missing key matches nothing. -/
def innerJoin : List MatchedListing → List DemoRow → List (MatchedListing × DemoRow)
  | [], _ => []
  | l :: rest, ds =>
    (ds.filter (fun d => l.matched_zip == some d.zip_code)).map (fun d => (l, d))
      ++ innerJoin rest ds

/-- Line 56 of src/app.py: append the derived metric to a joined pair. -/
def enrich (p : MatchedListing × DemoRow) : EnrichedRow :=
  { listing := p.1, demo := p.2,
    price_per_sqft := PFloat.div p.1.row.listing_price p.1.row.sq_ft }

/-- Lines 16-57 of src/app.py: the whole pipeline on in-memory tables.
A none input models a missing source file, for which the existence check of
lines 23-25 returns the empty frame instead of raising. The function is
total: no exception escapes on any input. -/
def load_and_merge_data : Option (List DemoRow) → Option (List ListingRow) → List EnrichedRow
  | some ds, some ls => (innerJoin (withDerived ds ls) (normalizeDemo ds)).map enrich
  | _, _ => []

/-- pandas merge column layout: left columns then right columns, a name
occurring on both sides getting the _x / _y suffix. -/
def mergeCols (lc rc : List String) : List String :=
  lc.map (fun c => if c ∈ rc then c ++ "_x" else c) ++
  rc.map (fun c => if c ∈ lc then c ++ "_y" else c)

/-- Schema of the frame returned by load_and_merge_data, as a function of
whether each source file exists and of the raw input schemas: the missing
branch returns the empty pd.DataFrame(), which has no columns at all;
otherwise the listing columns (with the two working columns appended at
lines 34 and 44) are merged with the demographic columns and the derived
metric column is appended. -/
def load_and_merge_cols (demoExists listExists : Bool) (demoCols listCols : List String) : List String :=
  if demoExists && listExists then
    mergeCols (listCols ++ ["zip_prefix", "matched_zip"]) demoCols ++ ["price_per_sqft"]
  else []

/-- Line 126 of src/app.py: the frame shown in the detailed view drops the
two internal working columns. -/
def displayedCols (demoExists listExists : Bool) (demoCols listCols : List String) : List String :=
  (load_and_merge_cols demoExists listExists demoCols listCols).filter
    (fun c => !(c == "zip_prefix" || c == "matched_zip"))

/-- Scenario A demographics: one row with zip_code 32599. -/
def demoA : List DemoRow :=
  [{ zip_code := "32599", school_rating := PFloat.num 8, crime_index := "Low" }]

/-- Scenario A listing: postal_code 325-A. -/
def listingA : ListingRow :=
  { postal_code := some "325-A", listing_price := PFloat.num 250000,
    sq_ft := PFloat.num 1000, raw_address := "12 Main St" }

/-- The single enriched output row of Scenario A. -/
def rowA : EnrichedRow :=
  { listing := { row := listingA, zip_prefix := some "325", matched_zip := some "32599" },
    demo := { zip_code := "32599", school_rating := PFloat.num 8, crime_index := "Low" },
    price_per_sqft := PFloat.num 250 }

/-- Scenario D listing: sq_ft zero, listing_price 100000. -/
def listingD : ListingRow :=
  { postal_code := some "32599", listing_price := PFloat.num 100000,
    sq_ft := PFloat.num 0, raw_address := "0 Zero Ct" }

/-- The single enriched output row of Scenario D: the metric is inf. -/
def rowD : EnrichedRow :=
  { listing := { row := listingD, zip_prefix := some "32599", matched_zip := some "32599" },
    demo := { zip_code := "32599", school_rating := PFloat.num 8, crime_index := "Low" },
    price_per_sqft := PFloat.inf }

theorem mem_takeWhile_isTrue (p : Char → Bool) :
    ∀ (l : List Char), ∀ c ∈ l.takeWhile p, p c = true := by
  intro l
  induction l with
  | nil => intro c hc; simp [List.takeWhile] at hc
  | cons x xs ih =>
    intro c hc
    rw [List.takeWhile_cons] at hc
    by_cases hx : p x = true
    · rw [if_pos hx] at hc
      rcases List.mem_cons.mp hc with rfl | hc
      · exact hx
      · exact ih c hc
    · rw [if_neg hx] at hc
      simp at hc

theorem head_dropWhile_isFalse (p : Char → Bool) :
    ∀ (l : List Char) (d : Char) (t : List Char), l.dropWhile p = d :: t → p d = false := by
  intro l
  induction l with
  | nil => intro d t h; simp [List.dropWhile] at h
  | cons x xs ih =>
    intro d t h
    rw [List.dropWhile_cons] at h
    by_cases hx : p x = true
    · rw [if_pos hx] at h
      exact ih d t h
    · rw [if_neg hx] at h
      cases h
      exact Bool.eq_false_iff.mpr hx

theorem firstDigitRun_eq_none (l : List Char) (h : ∀ c ∈ l, c.isDigit = false) :
    firstDigitRun l = none := by
  induction l with
  | nil => rfl
  | cons x xs ih =>
    have hx : x.isDigit = false := h x (List.mem_cons_self x xs)
    rw [firstDigitRun, if_neg (by simp [hx])]
    exact ih (fun c hc => h c (List.mem_cons_of_mem x hc))

theorem firstDigitRun_spec :
    ∀ (l : List Char) (d : Char), d ∈ l → d.isDigit = true →
      ∃ pre run post, l = pre ++ run ++ post ∧ firstDigitRun l = some run ∧ run ≠ [] ∧
        (∀ c ∈ pre, c.isDigit = false) ∧ (∀ c ∈ run, c.isDigit = true) ∧
        (∀ x t, post = x :: t → x.isDigit = false) := by
  intro l
  induction l with
  | nil => intro d hd _; simp at hd
  | cons c cs ih =>
    intro d hd hdig
    by_cases hc : c.isDigit = true
    · refine ⟨[], c :: cs.takeWhile Char.isDigit, cs.dropWhile Char.isDigit,
        ?_, ?_, by simp, by simp, ?_, ?_⟩
      · simp [List.takeWhile_append_dropWhile]
      · rw [firstDigitRun, if_pos hc]
      · intro x hx
        rcases List.mem_cons.mp hx with rfl | hx
        · exact hc
        · exact mem_takeWhile_isTrue Char.isDigit cs x hx
      · intro x t hpost
        exact head_dropWhile_isFalse Char.isDigit cs x t hpost
    · have hd2 : d ∈ cs := by
        rcases List.mem_cons.mp hd with rfl | hd2
        · exact absurd hdig hc
        · exact hd2
      obtain ⟨pre, run, post, hsplit, hrun, hne, hpre, hdig2, hpost⟩ := ih d hd2 hdig
      refine ⟨c :: pre, run, post, by simp [hsplit], ?_, hne, ?_, hdig2, hpost⟩
      · rw [firstDigitRun, if_neg (by simp [hc])]
        exact hrun
      · intro x hx
        rcases List.mem_cons.mp hx with rfl | hx
        · exact Bool.eq_false_iff.mpr hc
        · exact hpre x hx

theorem zfill_digits (s : String) (h5 : s.data.length ≤ 5)
    (hd : ∀ c ∈ s.data, c.isDigit = true) :
    (zfill s 5).data.length = 5 ∧ ∀ c ∈ (zfill s 5).data, c.isDigit = true := by
  rw [zfill]
  by_cases hge : 5 ≤ s.data.length
  · rw [if_pos hge]
    exact ⟨Nat.le_antisymm h5 hge, hd⟩
  · rw [if_neg hge]
    split
    next heq =>
      constructor
      · show (List.replicate 5 '0').length = 5
        simp
      · intro c hc
        have hc2 : c ∈ List.replicate 5 '0' := hc
        rw [List.eq_of_mem_replicate hc2]
        decide
    next c1 cs1 heq =>
      have hc1 : c1.isDigit = true := hd c1 (by rw [heq]; exact List.mem_cons_self c1 cs1)
      have hns : ¬(c1 = '+' ∨ c1 = '-') := by
        rintro (rfl | rfl) <;> exact absurd hc1 (by decide)
      rw [if_neg hns]
      constructor
      · show (List.replicate (5 - s.data.length) '0' ++ s.data).length = 5
        rw [List.length_append, List.length_replicate]
        omega
      · intro x hx
        have hx2 : x ∈ List.replicate (5 - s.data.length) '0' ++ s.data := hx
        rcases List.mem_append.mp hx2 with hx3 | hx3
        · rw [List.eq_of_mem_replicate hx3]; decide
        · exact hd x hx3

theorem bestFrom_spec (q : String) :
    ∀ (cs : List String) (cur : String × ℚ),
      cur.2 ≤ (bestFrom q cur cs).2 ∧
      (bestFrom q cur cs = cur ∨
        ((bestFrom q cur cs).1 ∈ cs ∧
          (bestFrom q cur cs).2 = scoreOf q (bestFrom q cur cs).1)) ∧
      ∀ c ∈ cs, scoreOf q c ≤ (bestFrom q cur cs).2 := by
  intro cs
  induction cs with
  | nil =>
    intro cur
    exact ⟨le_refl _, Or.inl rfl, by simp⟩
  | cons c cs ih =>
    intro cur
    have hstep : bestFrom q cur (c :: cs) =
        bestFrom q (if cur.2 < scoreOf q c then (c, scoreOf q c) else cur) cs := rfl
    obtain ⟨ih1, ih2, ih3⟩ := ih (if cur.2 < scoreOf q c then (c, scoreOf q c) else cur)
    have hcur : cur.2 ≤ (if cur.2 < scoreOf q c then (c, scoreOf q c) else cur).2 := by
      by_cases hlt : cur.2 < scoreOf q c
      · rw [if_pos hlt]; exact le_of_lt hlt
      · rw [if_neg hlt]
    have hc : scoreOf q c ≤ (if cur.2 < scoreOf q c then (c, scoreOf q c) else cur).2 := by
      by_cases hlt : cur.2 < scoreOf q c
      · rw [if_pos hlt]
      · rw [if_neg hlt]; exact le_of_not_lt hlt
    refine ⟨?_, ?_, ?_⟩
    · rw [hstep]; exact le_trans hcur ih1
    · rw [hstep]
      rcases ih2 with h | h
      · by_cases hlt : cur.2 < scoreOf q c
        · right
          rw [h, if_pos hlt]
          exact ⟨List.mem_cons_self c cs, rfl⟩
        · left
          rw [h, if_neg hlt]
      · right
        exact ⟨List.mem_cons_of_mem c h.1, h.2⟩
    · intro x hx
      rw [hstep]
      rcases List.mem_cons.mp hx with rfl | hx
      · exact le_trans hc ih1
      · exact ih3 x hx

theorem extractOne_spec (q : String) (choices : List String) (b : String × ℚ)
    (h : extractOne q choices = some b) :
    b.1 ∈ choices ∧ b.2 = scoreOf q b.1 ∧ ∀ c ∈ choices, scoreOf q c ≤ b.2 := by
  cases choices with
  | nil => simp [extractOne] at h
  | cons c cs =>
    have hb : b = bestFrom q (c, scoreOf q c) cs := by
      rw [extractOne] at h
      exact (Option.some_injective _ h).symm
    obtain ⟨h1, h2, h3⟩ := bestFrom_spec q cs (c, scoreOf q c)
    subst hb
    refine ⟨?_, ?_, ?_⟩
    · rcases h2 with h | h
      · rw [h]; exact List.mem_cons_self c cs
      · exact List.mem_cons_of_mem c h.1
    · rcases h2 with h | h
      · rw [h]
      · exact h.2
    · intro x hx
      rcases List.mem_cons.mp hx with rfl | hx
      · exact h1
      · exact h3 x hx

theorem mem_uniqueAux :
    ∀ (l seen : List String) (x : String),
      x ∈ uniqueAux seen l ↔ (x ∈ l ∧ x ∉ seen) := by
  intro l
  induction l with
  | nil => intro seen x; simp [uniqueAux]
  | cons y ys ih =>
    intro seen x
    by_cases hy : y ∈ seen
    · rw [uniqueAux, if_pos hy, ih seen x]
      simp only [List.mem_cons]
      by_cases hxy : x = y
      · subst hxy; simp [hy]
      · simp [hxy]
    · rw [uniqueAux, if_neg hy]
      simp only [List.mem_cons]
      rw [ih (y :: seen) x]
      simp only [List.mem_cons]
      by_cases hxy : x = y
      · subst hxy; simp [hy]
      · simp [hxy]

theorem mem_uniqueFirst (l : List String) (x : String) :
    x ∈ uniqueFirst l ↔ x ∈ l := by
  rw [uniqueFirst, mem_uniqueAux]
  simp

theorem mem_innerJoin :
    ∀ (ml : List MatchedListing) (ds : List DemoRow) (p : MatchedListing × DemoRow),
      p ∈ innerJoin ml ds ↔
        (p.1 ∈ ml ∧ p.2 ∈ ds ∧ p.1.matched_zip = some p.2.zip_code) := by
  intro ml
  induction ml with
  | nil => intro ds p; simp [innerJoin]
  | cons l rest ih =>
    intro ds p
    rw [innerJoin, List.mem_append, ih ds p, List.mem_cons]
    constructor
    · rintro (h | ⟨h1, h2, h3⟩)
      · obtain ⟨d, hd, hp⟩ := List.mem_map.mp h
        obtain ⟨hd1, hd2⟩ := List.mem_filter.mp hd
        rw [← hp]
        exact ⟨Or.inl rfl, hd1, by simpa using hd2⟩
      · exact ⟨Or.inr h1, h2, h3⟩
    · rintro ⟨h1 | h1, h2, h3⟩
      · left
        apply List.mem_map.mpr
        refine ⟨p.2, List.mem_filter.mpr ⟨h2, ?_⟩, ?_⟩
        · rw [← h1]; simpa using h3
        · rw [← h1]
      · right
        exact ⟨h1, h2, h3⟩

theorem innerJoin_nil_right : ∀ (ml : List MatchedListing), innerJoin ml [] = [] := by
  intro ml
  induction ml with
  | nil => rfl
  | cons l rest ih => rw [innerJoin, ih]; rfl

theorem find_best_zip_some (choices : List String) (z : String) (pfx : Option String)
    (h : find_best_zip choices pfx = some z) :
    ∃ p, pfx = some p ∧ z ∈ choices ∧ 80 ≤ scoreOf p z ∧
      ∀ c ∈ choices, scoreOf p c ≤ scoreOf p z := by
  cases pfx with
  | none => simp [find_best_zip] at h
  | some p =>
    simp only [find_best_zip] at h
    split at h
    next heq => exact absurd h (by simp)
    next m heq =>
      split at h
      next hth =>
        obtain ⟨hmem, hsc, hmax⟩ := extractOne_spec p choices m heq
        have hz : m.1 = z := Option.some.inj h
        refine ⟨p, rfl, hz ▸ hmem, ?_, ?_⟩
        · rw [← hz, ← hsc]; exact hth
        · intro c hc
          rw [← hz, ← hsc]
          exact hmax c hc
      next hth => exact absurd h (by simp)

theorem find_best_zip_below (choices : List String) (p : String)
    (h : ∀ c ∈ choices, scoreOf p c < 80) :
    find_best_zip choices (some p) = none := by
  cases choices with
  | nil => rfl
  | cons c cs =>
    simp only [find_best_zip]
    cases hE : extractOne p (c :: cs) with
    | none => rfl
    | some m =>
      obtain ⟨hmem, hsc, hmax⟩ := extractOne_spec p (c :: cs) m hE
      show (if (80:ℚ) ≤ m.2 then some m.1 else none) = none
      rw [if_neg (by rw [hsc]; exact not_le_of_lt (h m.1 hmem))]

theorem find_best_zip_hit (choices : List String) (p : String) (c0 : String)
    (hc0 : c0 ∈ choices) (h80 : 80 ≤ scoreOf p c0) :
    ∃ z, find_best_zip choices (some p) = some z := by
  cases choices with
  | nil => simp at hc0
  | cons c cs =>
    simp only [find_best_zip]
    cases hE : extractOne p (c :: cs) with
    | none => simp [extractOne] at hE
    | some m =>
      obtain ⟨hmem, hsc, hmax⟩ := extractOne_spec p (c :: cs) m hE
      refine ⟨m.1, ?_⟩
      show (if (80:ℚ) ≤ m.2 then some m.1 else none) = some m.1
      rw [if_pos (le_trans h80 (hmax c0 hc0))]

theorem ratDiv_key (n m : ℤ) (hm : m ≠ 0) :
    (if m < 0 then mkRat (-n) (-m).toNat else mkRat n m.toNat) = (n : ℚ) / (m : ℚ) := by
  by_cases hml : m < 0
  · rw [if_pos hml, Rat.mkRat_eq_divInt, Rat.divInt_eq_div]
    have h2 : ((-m).toNat : ℤ) = -m := Int.toNat_of_nonneg (by omega)
    rw [h2]
    push_cast
    rw [neg_div_neg_eq]
  · rw [if_neg hml, Rat.mkRat_eq_divInt, Rat.divInt_eq_div]
    have h2 : (m.toNat : ℤ) = m := Int.toNat_of_nonneg (by omega)
    rw [h2]

theorem ratDiv_eq_div (a b : ℚ) (hb : b ≠ 0) : ratDiv a b = a / b := by
  have hbn : b.num ≠ 0 := Rat.num_ne_zero.mpr hb
  have had : (a.den : ℤ) ≠ 0 := by exact_mod_cast a.den_nz
  have hm : b.num * (a.den : ℤ) ≠ 0 := mul_ne_zero hbn had
  rw [ratDiv]
  rw [ratDiv_key (a.num * (b.den : ℤ)) (b.num * (a.den : ℤ)) hm]
  have hmq : ((b.num * (a.den : ℤ) : ℤ) : ℚ) ≠ 0 := by exact_mod_cast hm
  rw [div_eq_div_iff hmq hb]
  push_cast
  rw [← Rat.mul_den_eq_num a, ← Rat.mul_den_eq_num b]
  ring

theorem div_zero_or_nan_nonfinite (x : PFloat) :
    PFloat.isFinite (PFloat.div x (PFloat.num 0)) = false ∧
    PFloat.isFinite (PFloat.div x PFloat.nan) = false := by
  constructor
  · cases x with
    | num a =>
      show PFloat.isFinite
        (if (0:ℚ) = 0 then (if 0 < a then PFloat.inf else if a < 0 then PFloat.negInf else PFloat.nan)
         else PFloat.num (ratDiv a 0)) = false
      rw [if_pos rfl]
      split_ifs <;> rfl
    | inf =>
      show PFloat.isFinite (if (0:ℚ) < 0 then PFloat.negInf else PFloat.inf) = false
      rw [if_neg (lt_irrefl (0:ℚ))]
      rfl
    | negInf =>
      show PFloat.isFinite (if (0:ℚ) < 0 then PFloat.inf else PFloat.negInf) = false
      rw [if_neg (lt_irrefl (0:ℚ))]
      rfl
    | nan => rfl
  · cases x <;> rfl

theorem map_tag_id (lc rc : List String) (tag : String) (h : ∀ c ∈ lc, c ∉ rc) :
    lc.map (fun c => if c ∈ rc then c ++ tag else c) = lc := by
  induction lc with
  | nil => rfl
  | cons x xs ih =>
    rw [List.map_cons, if_neg (h x (List.mem_cons_self x xs)),
      ih (fun c hc => h c (List.mem_cons_of_mem x hc))]

theorem mergeCols_disjoint (lc rc : List String) (h : ∀ c ∈ lc, c ∉ rc) :
    mergeCols lc rc = lc ++ rc := by
  rw [mergeCols, map_tag_id lc rc "_x" h, map_tag_id rc lc "_y" (fun c hc hlc => h c hlc hc)]

/-- C1: find_best_zip assigns, for a present prefix, a choice from the
distinct candidate set carrying the maximum partial-similarity score,
accepted only when that score is at least 80 on the 0-100 scale; a missing
prefix, an empty candidate set, or an all-below-threshold candidate set
yields no match, and whenever some candidate reaches 80 a match is
returned; consequently every listing row of the derived table whose
matched_zip is present had a similarity score of at least 80 against a
canonical demographic zip code of the table. -/
theorem find_best_zip_threshold_argmax :
    (∀ (choices : List String) (z : String) (pfx : Option String),
        find_best_zip choices pfx = some z →
        ∃ p, pfx = some p ∧ z ∈ choices ∧ 80 ≤ scoreOf p z ∧
          ∀ c ∈ choices, scoreOf p c ≤ scoreOf p z) ∧
    (∀ choices : List String, find_best_zip choices none = none) ∧
    (∀ pfx : Option String, find_best_zip [] pfx = none) ∧
    (∀ (choices : List String) (p : String),
        (∀ c ∈ choices, scoreOf p c < 80) → find_best_zip choices (some p) = none) ∧
    (∀ (choices : List String) (p c0 : String), c0 ∈ choices → 80 ≤ scoreOf p c0 →
        ∃ z, find_best_zip choices (some p) = some z) ∧
    (∀ (ds : List DemoRow) (ls : List ListingRow) (ml : MatchedListing) (z : String),
        ml ∈ withDerived ds ls → ml.matched_zip = some z →
        ∃ p, MatchedListing.zip_prefix ml = some p ∧ 80 ≤ scoreOf p z ∧
          z ∈ (normalizeDemo ds).map DemoRow.zip_code) := by
  refine ⟨find_best_zip_some, fun choices => rfl, fun pfx => ?_,
    find_best_zip_below, find_best_zip_hit, ?_⟩
  · cases pfx <;> rfl
  · intro ds ls ml z hml hmz
    replace hml : ml ∈ ls.map (addDerived (choicesOf ds)) := hml
    obtain ⟨l, hl, hadd⟩ := List.mem_map.mp hml
    have hmz2 : find_best_zip (choicesOf ds) (zipPrefixOf l.postal_code) = some z := by
      rw [← hadd] at hmz
      exact hmz
    obtain ⟨p, hp, hmem, hsc, hmax⟩ := find_best_zip_some _ z _ hmz2
    refine ⟨p, ?_, hsc, (mem_uniqueFirst _ z).mp hmem⟩
    rw [← hadd]
    exact hp

/-- C1 witness: on the concrete Scenario A candidate set, the matched code
32599 indeed scored at least the threshold against the prefix 325. -/
theorem find_best_zip_threshold_argmax_witness :
    80 ≤ scoreOf "325" "32599" ∧ "32599" ∈ ["32599"] := by
  obtain ⟨p, hp, hmem, hsc, hmax⟩ :=
    find_best_zip_threshold_argmax.1 ["32599"] "32599" (some "325") (by decide)
  cases hp
  exact ⟨hsc, hmem⟩

/-- C2: every row of the merged output has a present matched_zip equal to
the zip_code of its joined demographic row of the normalized table, and a
derived listing row whose matched_zip is absent or matches no demographic
zip_code contributes no output row, for every pair of input tables. -/
theorem merged_rows_all_matched (ds : List DemoRow) (ls : List ListingRow) :
    (∀ r ∈ load_and_merge_data (some ds) (some ls),
        r.listing.matched_zip ≠ none ∧
        r.listing.matched_zip = some r.demo.zip_code ∧
        r.demo ∈ normalizeDemo ds) ∧
    (∀ ml ∈ withDerived ds ls,
        (ml.matched_zip = none ∨ ∀ d ∈ normalizeDemo ds, ml.matched_zip ≠ some d.zip_code) →
        ∀ r ∈ load_and_merge_data (some ds) (some ls), r.listing ≠ ml) := by
  constructor
  · intro r hr
    replace hr : r ∈ (innerJoin (withDerived ds ls) (normalizeDemo ds)).map enrich := hr
    obtain ⟨p, hp, hpr⟩ := List.mem_map.mp hr
    obtain ⟨h1, h2, h3⟩ := (mem_innerJoin _ _ p).mp hp
    subst hpr
    refine ⟨?_, h3, h2⟩
    show p.1.matched_zip ≠ none
    rw [h3]
    exact Option.some_ne_none _
  · intro ml hml hbad r hr hml2
    replace hr : r ∈ (innerJoin (withDerived ds ls) (normalizeDemo ds)).map enrich := hr
    obtain ⟨p, hp, hpr⟩ := List.mem_map.mp hr
    obtain ⟨h1, h2, h3⟩ := (mem_innerJoin _ _ p).mp hp
    have hpl : p.1 = ml := by rw [← hpr] at hml2; exact hml2
    rcases hbad with hb | hb
    · rw [hpl, hb] at h3
      exact Option.noConfusion h3
    · exact hb p.2 h2 (hpl ▸ h3)

/-- C2 witness: the Scenario A output row is in the merged table and its
matched_zip equals the zip_code of its demographic row. -/
theorem merged_rows_all_matched_witness :
    rowA.listing.matched_zip = some rowA.demo.zip_code ∧
    rowA.demo ∈ normalizeDemo demoA := by
  have h := (merged_rows_all_matched demoA [listingA]).1 rowA (by decide)
  exact ⟨h.2.1, h.2.2⟩

/-- C3: the derived listing prefix is exactly the first maximal contiguous
run of decimal digits of the raw postal-code string (the characters before
it hold no digit, it is nonempty, all digits, and the character right
after it, if any, is not a digit); a missing raw value or a digit-free
string yields an absent prefix; and every row of the derived listings
table carries exactly this derivation of its own postal_code. -/
theorem zip_prefix_is_first_digit_run :
    (zipPrefixOf none = none) ∧
    (∀ s : String, (∀ c ∈ s.data, c.isDigit = false) → zipPrefixOf (some s) = none) ∧
    (∀ (s : String) (d : Char), d ∈ s.data → d.isDigit = true →
        ∃ pre run post, s.data = pre ++ run ++ post ∧
          zipPrefixOf (some s) = some (String.mk run) ∧ run ≠ [] ∧
          (∀ c ∈ pre, c.isDigit = false) ∧ (∀ c ∈ run, c.isDigit = true) ∧
          (∀ x t, post = x :: t → x.isDigit = false)) ∧
    (∀ (ds : List DemoRow) (ls : List ListingRow), ∀ ml ∈ withDerived ds ls,
        MatchedListing.zip_prefix ml = zipPrefixOf ml.row.postal_code) := by
  refine ⟨rfl, ?_, ?_, ?_⟩
  · intro s hs
    show Option.map String.mk (firstDigitRun s.data) = none
    rw [firstDigitRun_eq_none s.data hs]
    rfl
  · intro s d hd hdig
    obtain ⟨pre, run, post, hsplit, hrun, hne, hpre, hdig2, hpost⟩ :=
      firstDigitRun_spec s.data d hd hdig
    refine ⟨pre, run, post, hsplit, ?_, hne, hpre, hdig2, hpost⟩
    show Option.map String.mk (firstDigitRun s.data) = some (String.mk run)
    rw [hrun]
    rfl
  · intro ds ls ml hml
    replace hml : ml ∈ ls.map (addDerived (choicesOf ds)) := hml
    obtain ⟨l, hl, hadd⟩ := List.mem_map.mp hml
    rw [← hadd]
    rfl

/-- C3 witness: the Scenario A postal code 325-A yields the prefix 325. -/
theorem zip_prefix_is_first_digit_run_witness :
    zipPrefixOf (some "325-A") = some "325" ∧ '3' ∈ ("325-A").data := by
  obtain ⟨pre, run, post, hsplit, heq, hne, hpre, hrun, hpost⟩ :=
    zip_prefix_is_first_digit_run.2.2.1 "325-A" '3' (by decide) (by decide)
  exact ⟨by decide, by decide⟩

/-- C4 counterexample: the demographic zip_code input 1234-A passes
normalization unchanged (its string has six characters, so zfill pads
nothing), and the result is neither five characters long nor digits-only,
refuting the claim for arbitrary demographics inputs. -/
theorem normalized_zip_universal_cex :
    (normalizeDemo [{ zip_code := "1234-A", school_rating := PFloat.num 5, crime_index := "Low" }]).map
        DemoRow.zip_code = ["1234-A"] ∧
    ¬ (("1234-A").data.length = 5 ∧ ("1234-A").data.all Char.isDigit = true) := by
  exact ⟨by decide, by decide⟩

/-- C4 amended: for every demographics input whose raw zip_code strings
are digits-only of length at most five (in particular numeric-typed postal
codes that dropped leading zeros), every normalized zip_code is exactly
five characters, all decimal digits. -/
theorem normalized_zip_five_digits_amended (ds : List DemoRow)
    (h : ∀ d ∈ ds, d.zip_code.data.length ≤ 5 ∧ ∀ c ∈ d.zip_code.data, c.isDigit = true) :
    ∀ d ∈ normalizeDemo ds,
      d.zip_code.data.length = 5 ∧ ∀ c ∈ d.zip_code.data, c.isDigit = true := by
  intro d hd
  replace hd : d ∈ ds.map (fun d0 => { d0 with zip_code := zfill d0.zip_code 5 }) := hd
  obtain ⟨d0, hd0, hmk⟩ := List.mem_map.mp hd
  obtain ⟨h5, hdig⟩ := h d0 hd0
  rw [← hmk]
  exact zfill_digits d0.zip_code h5 hdig

/-- C4 amended witness: the three-digit numeric code 325 normalizes to
00325, five digits. -/
theorem normalized_zip_five_digits_amended_witness :
    (normalizeDemo [{ zip_code := "325", school_rating := PFloat.num 5, crime_index := "Low" }]).map
        DemoRow.zip_code = ["00325"] ∧
    ("00325").data.length = 5 ∧ ("00325").data.all Char.isDigit = true := by
  have h := normalized_zip_five_digits_amended
    [{ zip_code := "325", school_rating := PFloat.num 5, crime_index := "Low" }]
    (by decide)
    { zip_code := "00325", school_rating := PFloat.num 5, crime_index := "Low" }
    (by decide)
  exact ⟨by decide, h.1, by decide⟩

/-- C5: every row of the merged output table carries
price_per_sqft = listing_price / sq_ft computed from its own columns, and
on finite values with a nonzero denominator the PFloat division is exact
rational division. -/
theorem price_per_sqft_is_quotient :
    (∀ (ds : List DemoRow) (ls : List ListingRow),
        ∀ r ∈ load_and_merge_data (some ds) (some ls),
          r.price_per_sqft = PFloat.div r.listing.row.listing_price r.listing.row.sq_ft) ∧
    (∀ a b : ℚ, b ≠ 0 → PFloat.div (PFloat.num a) (PFloat.num b) = PFloat.num (a / b)) := by
  constructor
  · intro ds ls r hr
    replace hr : r ∈ (innerJoin (withDerived ds ls) (normalizeDemo ds)).map enrich := hr
    obtain ⟨p, hp, hpr⟩ := List.mem_map.mp hr
    subst hpr
    rfl
  · intro a b hb
    show (if b = 0 then (if 0 < a then PFloat.inf else if a < 0 then PFloat.negInf else PFloat.nan)
          else PFloat.num (ratDiv a b)) = PFloat.num (a / b)
    rw [if_neg hb, ratDiv_eq_div a b hb]

/-- C5 witness: the Scenario A output row has
price_per_sqft = 250000 / 1000 = 250. -/
theorem price_per_sqft_is_quotient_witness :
    EnrichedRow.price_per_sqft rowA =
      PFloat.div (PFloat.num 250000) (PFloat.num 1000) ∧
    PFloat.div (PFloat.num 250000) (PFloat.num 1000) = PFloat.num 250 := by
  have h := price_per_sqft_is_quotient.1 demoA [listingA] rowA (by decide)
  exact ⟨h, by decide⟩

/-- C6: with both sources present and input schemas that are disjoint and
free of the two reserved working names, the displayed table drops exactly
zip_prefix and matched_zip while keeping every input column of both
sources and the derived price_per_sqft column. -/
theorem displayed_cols_exclude_working (demoCols listCols : List String)
    (hdisj : ∀ c ∈ listCols ++ ["zip_prefix", "matched_zip"], c ∉ demoCols)
    (hzp : "zip_prefix" ∉ listCols) (hmz : "matched_zip" ∉ listCols) :
    "zip_prefix" ∉ displayedCols true true demoCols listCols ∧
    "matched_zip" ∉ displayedCols true true demoCols listCols ∧
    "price_per_sqft" ∈ displayedCols true true demoCols listCols ∧
    (∀ c ∈ listCols, c ∈ displayedCols true true demoCols listCols) ∧
    (∀ c ∈ demoCols, c ∈ displayedCols true true demoCols listCols) := by
  have hmc : mergeCols (listCols ++ ["zip_prefix", "matched_zip"]) demoCols =
      (listCols ++ ["zip_prefix", "matched_zip"]) ++ demoCols :=
    mergeCols_disjoint _ _ hdisj
  have hbase : load_and_merge_cols true true demoCols listCols =
      mergeCols (listCols ++ ["zip_prefix", "matched_zip"]) demoCols ++ ["price_per_sqft"] := rfl
  have hcols : displayedCols true true demoCols listCols =
      ((listCols ++ ["zip_prefix", "matched_zip"]) ++ demoCols ++ ["price_per_sqft"]).filter
        (fun c => !(c == "zip_prefix" || c == "matched_zip")) := by
    rw [displayedCols, hbase, hmc]
  have hpred : ∀ c : String, c ≠ "zip_prefix" → c ≠ "matched_zip" →
      (!(c == "zip_prefix" || c == "matched_zip")) = true := by
    intro c h1 h2
    simp [h1, h2]
  have hzp2 : "zip_prefix" ∉ demoCols := hdisj "zip_prefix" (by simp)
  have hmz2 : "matched_zip" ∉ demoCols := hdisj "matched_zip" (by simp)
  refine ⟨?_, ?_, ?_, ?_, ?_⟩
  · rw [hcols]
    intro hmem
    have h2 := (List.mem_filter.mp hmem).2
    simp at h2
  · rw [hcols]
    intro hmem
    have h2 := (List.mem_filter.mp hmem).2
    simp at h2
  · rw [hcols]
    refine List.mem_filter.mpr ⟨?_, by decide⟩
    simp [List.mem_append]
  · intro c hc
    rw [hcols]
    refine List.mem_filter.mpr ⟨?_, hpred c (fun e => hzp (e ▸ hc)) (fun e => hmz (e ▸ hc))⟩
    simp [List.mem_append, hc]
  · intro c hc
    rw [hcols]
    refine List.mem_filter.mpr ⟨?_, hpred c (fun e => hzp2 (e ▸ hc)) (fun e => hmz2 (e ▸ hc))⟩
    simp [List.mem_append, hc]

/-- C6 witness: on the repository schemas, the displayed table keeps no
working column and keeps the derived metric column. -/
theorem displayed_cols_exclude_working_witness :
    "zip_prefix" ∉ displayedCols true true
      ["zip_code", "school_rating", "crime_index"]
      ["postal_code", "listing_price", "sq_ft", "raw_address"] ∧
    "matched_zip" ∉ displayedCols true true
      ["zip_code", "school_rating", "crime_index"]
      ["postal_code", "listing_price", "sq_ft", "raw_address"] ∧
    "price_per_sqft" ∈ displayedCols true true
      ["zip_code", "school_rating", "crime_index"]
      ["postal_code", "listing_price", "sq_ft", "raw_address"] := by
  have h := displayed_cols_exclude_working
    ["zip_code", "school_rating", "crime_index"]
    ["postal_code", "listing_price", "sq_ft", "raw_address"]
    (by decide) (by decide) (by decide)
  exact ⟨h.1, h.2.1, h.2.2.1⟩

/-- C7: a missing demographics or listings source yields the empty output
table, and an empty demographics table yields an empty output table; the
pipeline is a total function, so no exception escapes in either case. -/
theorem missing_or_empty_sources_empty_output :
    (∀ lopt : Option (List ListingRow), load_and_merge_data none lopt = []) ∧
    (∀ dopt : Option (List DemoRow), load_and_merge_data dopt none = []) ∧
    (∀ ls : List ListingRow, load_and_merge_data (some []) (some ls) = []) := by
  refine ⟨fun lopt => rfl, fun dopt => ?_, fun ls => ?_⟩
  · cases dopt <;> rfl
  · show (innerJoin (withDerived [] ls) (normalizeDemo [])).map enrich = []
    rw [show normalizeDemo [] = [] from rfl, innerJoin_nil_right]
    rfl

/-- C7 witness: both failure modes at concrete inputs. -/
theorem missing_or_empty_sources_empty_output_witness :
    load_and_merge_data none (some [listingA]) = [] ∧
    load_and_merge_data (some []) (some [listingA]) = [] :=
  ⟨missing_or_empty_sources_empty_output.1 (some [listingA]),
   missing_or_empty_sources_empty_output.2.2 [listingA]⟩

/-- C8: a merged row whose sq_ft is zero or absent has a non-finite
price_per_sqft (the division is total, it raises nothing), and the join
never filters on sq_ft: any derived listing row whose matched_zip equals
the zip_code of a row of the normalized demographic table produces its
enriched row in the output whatever its sq_ft. -/
theorem zero_sqft_nonfinite_row_present :
    (∀ (ds : List DemoRow) (ls : List ListingRow),
        ∀ r ∈ load_and_merge_data (some ds) (some ls),
          (r.listing.row.sq_ft = PFloat.num 0 ∨ r.listing.row.sq_ft = PFloat.nan) →
          PFloat.isFinite r.price_per_sqft = false) ∧
    (∀ (ds : List DemoRow) (ls : List ListingRow) (ml : MatchedListing) (d : DemoRow),
        ml ∈ withDerived ds ls → d ∈ normalizeDemo ds →
        ml.matched_zip = some d.zip_code →
        enrich (ml, d) ∈ load_and_merge_data (some ds) (some ls)) := by
  constructor
  · intro ds ls r hr hsq
    replace hr : r ∈ (innerJoin (withDerived ds ls) (normalizeDemo ds)).map enrich := hr
    obtain ⟨p, hp, hpr⟩ := List.mem_map.mp hr
    subst hpr
    show PFloat.isFinite (PFloat.div p.1.row.listing_price p.1.row.sq_ft) = false
    rcases hsq with h | h
    · replace h : p.1.row.sq_ft = PFloat.num 0 := h
      rw [h]
      exact (div_zero_or_nan_nonfinite _).1
    · replace h : p.1.row.sq_ft = PFloat.nan := h
      rw [h]
      exact (div_zero_or_nan_nonfinite _).2
  · intro ds ls ml d hml hd hmz
    show enrich (ml, d) ∈ (innerJoin (withDerived ds ls) (normalizeDemo ds)).map enrich
    exact List.mem_map_of_mem enrich ((mem_innerJoin _ _ (ml, d)).mpr ⟨hml, hd, hmz⟩)

/-- C8 witness, Scenario D: a listing with price 100000 and sq_ft 0 is
matched, stays in the output, and its metric is the non-finite inf. -/
theorem zero_sqft_nonfinite_row_present_witness :
    enrich ({ row := listingD, zip_prefix := some "32599", matched_zip := some "32599" },
        { zip_code := "32599", school_rating := PFloat.num 8, crime_index := "Low" }) ∈
      load_and_merge_data (some demoA) (some [listingD]) ∧
    PFloat.isFinite (EnrichedRow.price_per_sqft rowD) = false ∧
    load_and_merge_data (some demoA) (some [listingD]) = [rowD] := by
  refine ⟨zero_sqft_nonfinite_row_present.2 demoA [listingD]
    { row := listingD, zip_prefix := some "32599", matched_zip := some "32599" }
    { zip_code := "32599", school_rating := PFloat.num 8, crime_index := "Low" }
    (by decide) (by decide) (by decide), ?_, by decide⟩
  exact zero_sqft_nonfinite_row_present.1 demoA [listingD] rowD (by decide) (Or.inl (by decide))

/-- C9: Scenario A end to end on concrete tables: demographics zip_code
32599 and listing postal_code 325-A give prefix 325, a partial similarity
of at least 80, matched_zip 32599, and one enriched output row. -/
theorem scenario_a_end_to_end :
    (withDerived demoA [listingA]).map MatchedListing.zip_prefix = [some "325"] ∧
    (withDerived demoA [listingA]).map MatchedListing.matched_zip = [some "32599"] ∧
    80 ≤ scoreOf "325" "32599" ∧
    load_and_merge_data (some demoA) (some [listingA]) = [rowA] := by
  exact ⟨by decide, by decide, by decide, by decide⟩

/-- C10: in the missing-source path the returned frame is the empty
pd.DataFrame, with zero rows and zero columns, so no output-contract
column exists in it. -/
theorem missing_source_no_rows_no_columns :
    (∀ demoCols listCols : List String,
        load_and_merge_cols false true demoCols listCols = [] ∧
        load_and_merge_cols true false demoCols listCols = [] ∧
        load_and_merge_cols false false demoCols listCols = []) ∧
    (∀ demoCols listCols : List String,
        "zip_code" ∉ load_and_merge_cols false true demoCols listCols ∧
        "listing_price" ∉ load_and_merge_cols false true demoCols listCols ∧
        "sq_ft" ∉ load_and_merge_cols false true demoCols listCols ∧
        "price_per_sqft" ∉ load_and_merge_cols false true demoCols listCols) ∧
    (∀ lopt : Option (List ListingRow), load_and_merge_data none lopt = []) ∧
    (∀ dopt : Option (List DemoRow), load_and_merge_data dopt none = []) := by
  refine ⟨fun dc lc => ⟨rfl, rfl, rfl⟩, fun dc lc => ?_, fun lopt => rfl, fun dopt => ?_⟩
  · refine ⟨?_, ?_, ?_, ?_⟩ <;> · show ¬ _ ∈ ([] : List String); simp
  · cases dopt <;> rfl

/-- C10 witness: concrete missing-source runs return the empty frame. -/
theorem missing_source_no_rows_no_columns_witness :
    load_and_merge_cols false true ["zip_code"] ["listing_price"] = [] ∧
    "zip_code" ∉ load_and_merge_cols false true ["zip_code"] ["listing_price"] ∧
    load_and_merge_data none (some [listingA]) = [] := by
  refine ⟨(missing_source_no_rows_no_columns.1 ["zip_code"] ["listing_price"]).1,
    (missing_source_no_rows_no_columns.2.1 ["zip_code"] ["listing_price"]).1,
    missing_source_no_rows_no_columns.2.2.1 (some [listingA])⟩
